import Mathlib

/-!
Verification development for the `file-deduplicator` hashing/grouping core
(`src/relate.rs`).  The Rust code is shallowly embedded: filesystem reads,
the SHA-256 digest, and the walkdir entry stream are explicit parameters,
machine integers become `Nat`, the mpsc progress channel becomes the list of
values sent on it, and a Rust panic becomes `Option.none`.
-/

namespace FileDedup

/-- Paths (`std::path::PathBuf`) are modelled as strings. -/
abbrev Path := String

/-- `FileInfo` (relate.rs:96-101): path, byte size, and creation time of one
filesystem entry.  `SystemTime` is modelled as a `Nat`. -/
structure FileInfo where
  name : Path
  size : Nat
  created : Nat
deriving DecidableEq, Repr

/-- `ErrorType` (relate.rs:25-31).  `io::Error` and `walkdir::Error` payloads
are modelled by their message strings; `WrongSize` carries (expected, actual). -/
inductive ErrorType where
  | io : String → ErrorType
  | walkDir : String → ErrorType
  | wrongSize : Nat → Nat → ErrorType
  | noCreatedTime : String → ErrorType
deriving DecidableEq, Repr

/-- `Error` (relate.rs:33-37): a path paired with an error kind. -/
structure Error where
  path : Path
  error_type : ErrorType
deriving DecidableEq, Repr

/-- `HashedFile` (relate.rs:17-21): hex digest string plus the descriptor. -/
structure HashedFile where
  hash : String
  info : FileInfo
deriving DecidableEq, Repr

/-- `hash_from_file_info` (relate.rs:77-89).  Opening and streaming the file
at `info.name` is modelled by the filesystem oracle
`fsR : Path → Except String (List Nat)`: an `io::Error` message, or the byte
content actually read.  `digest` models `format!("\x7b:x\x7d", Sha256(bytes))`,
the hex encoding of the 256-bit digest of the bytes read.  The code compares
`info.size != n` where `n` is the byte count copied into the hasher, failing
with `WrongSize(info.size, n)`; on match it returns the hash with the cloned
input descriptor. -/
def hash_from_file_info (digest : List Nat → String)
    (fsR : Path → Except String (List Nat)) (info : FileInfo) :
    Except Error HashedFile :=
  match fsR info.name with
  | .error e => .error ⟨info.name, .io e⟩
  | .ok bytes =>
    if info.size ≠ bytes.length then
      .error ⟨info.name, .wrongSize info.size bytes.length⟩
    else
      .ok ⟨digest bytes, info⟩

/-- `file_content_equal` (relate.rs:92-94): size equality checked alongside
hash equality.  Defined in the source but never invoked by `relate` or
`relate_sequential`. -/
def file_content_equal (a b : HashedFile) : Bool :=
  a.info.size == b.info.size && a.hash == b.hash

/-- `WalkInfo` (relate.rs:103-107).  The `HashSet<FileInfo>` is modelled as a
list into which `hsInsert` inserts only when no equal element is present, so
the list is deduplicated by full `FileInfo` equality. -/
structure WalkInfo where
  total_size : Nat
  files : List FileInfo
  errors : List Error
deriving DecidableEq, Repr

/-- Decidable equality for `Except`, used by the entry model below.  The
`isTrue`/`isFalse` constructors are exposed directly so that `decide` can
evaluate on concrete entries. -/
instance {ε α : Type} [DecidableEq ε] [DecidableEq α] :
    DecidableEq (Except ε α) := fun a b =>
  match a, b with
  | .error x, .error y =>
    if h : x = y then .isTrue (by simp [h]) else .isFalse (by simp [h])
  | .error _, .ok _ => .isFalse (by simp)
  | .ok _, .error _ => .isFalse (by simp)
  | .ok x, .ok y =>
    if h : x = y then .isTrue (by simp [h]) else .isFalse (by simp [h])

/-- Metadata of an entry: `metadata.len()` and the outcome of
`metadata.created()` (which fails with an `io::Error` where creation time is
unavailable). -/
structure EntryMeta where
  len : Nat
  created : Except String Nat
deriving DecidableEq, Repr

/-- A walkdir `DirEntry`: its path, and the outcome of `entry.metadata()`
(which fails with a `walkdir::Error`). -/
structure DirEntry where
  path : Path
  metadata : Except String EntryMeta
deriving DecidableEq, Repr

/-- `FileInfo::from_entry` (relate.rs:110-119): a metadata failure becomes a
`WalkDir` error at the entry's path, a missing creation time becomes a
`NoCreatedTime` error at the entry's path; otherwise the descriptor is built
from the entry's path, length, and creation time. -/
def FileInfo.from_entry (e : DirEntry) : Except Error FileInfo :=
  match e.metadata with
  | .error m => .error ⟨e.path, .walkDir m⟩
  | .ok md =>
    match md.created with
    | .error m => .error ⟨e.path, .noCreatedTime m⟩
    | .ok c => .ok ⟨e.path, md.len, c⟩

/-- `WalkInfo::new` (relate.rs:125-131). -/
def WalkInfo.new : WalkInfo := ⟨0, [], []⟩

/-- `WalkInfo::insert_error` (relate.rs:133-143): push one error, keep the
rest. -/
def WalkInfo.insert_error (w : WalkInfo) (e : Error) : WalkInfo :=
  ⟨w.total_size, w.files, w.errors ++ [e]⟩

/-- `HashSet::insert`: add the element only if no equal element is present
(deduplication by full equality of `FileInfo`). -/
def hsInsert (s : List FileInfo) (fi : FileInfo) : List FileInfo :=
  if fi ∈ s then s else s ++ [fi]

/-- `WalkInfo::insert_entry` (relate.rs:145-156): on a descriptor the running
total grows by `fi.size` and the descriptor is inserted into the set; on a
per-entry failure exactly one error is recorded. -/
def WalkInfo.insert_entry (w : WalkInfo) (e : DirEntry) : WalkInfo :=
  match FileInfo.from_entry e with
  | .error err => w.insert_error err
  | .ok fi => ⟨w.total_size + fi.size, hsInsert w.files fi, w.errors⟩

/-- The placeholder path used when the walkdir iterator itself failed before
yielding a path (relate.rs:164). -/
def noPathPlaceholder : Path := "<no path>"

/-- One step of the `fold` in `WalkInfo::walk` (relate.rs:162-167): an
iterator-level error is recorded against the placeholder path as an `IO`
error (the code converts the `walkdir::Error` with `e.into()`); an entry is
handed to `insert_entry`. -/
def walkStep (acc : WalkInfo) (entry : Except String DirEntry) : WalkInfo :=
  match entry with
  | .error m => acc.insert_error ⟨noPathPlaceholder, .io m⟩
  | .ok e => acc.insert_entry e

/-- `WalkInfo::walk` (relate.rs:159-168).  The `WalkDir` iterator output is
modelled as the list of its items, each either an iterator-level error or an
entry; the walk folds over all of them. -/
def WalkInfo.walk (entries : List (Except String DirEntry)) : WalkInfo :=
  entries.foldl walkStep WalkInfo.new

/-- `RelatedFiles` (relate.rs:171-174).  The
`HashMap<String, HashSet<FileInfo>>` is modelled as an association list with
unique keys; each group set is a deduplicated list. -/
structure RelatedFiles where
  files : List (String × List FileInfo)
  errors : List Error
deriving DecidableEq, Repr

/-- `RelateConf` (relate.rs:267-275).  `max_threads : u16`,
`file_threshold : usize`, `size_threshold : usize` all become `Nat`.  The
source doc comment on `max_threads` states "`0` will be changed to 1." -/
structure RelateConf where
  max_threads : Nat
  file_threshold : Nat
  size_threshold : Nat
deriving DecidableEq, Repr

/-- The group-insertion `match` shared by both paths
(relate.rs:210-219 and 247-256): if a group keyed by the hash exists the
descriptor is inserted into it, otherwise a new singleton group is created
(modelled by appending the new key, matching `HashMap::insert` on a missing
key). -/
def updateGroup : List (String × List FileInfo) → String → FileInfo →
    List (String × List FileInfo)
  | [], h, fi => [(h, [fi])]
  | (k, s) :: rest, h, fi =>
    if k = h then (k, hsInsert s fi) :: rest
    else (k, s) :: updateGroup rest h fi

/-- Aggregation of one hashing result (relate.rs:205-221 and 242-258): an
error is pushed onto the error list; a success is inserted into the group
keyed by its hash. -/
def recvStep (acc : RelatedFiles) (r : Except Error HashedFile) : RelatedFiles :=
  match r with
  | .error err => ⟨acc.files, acc.errors ++ [err]⟩
  | .ok file => ⟨updateGroup acc.files file.hash file.info, acc.errors⟩

/-- One loop iteration of either path: aggregate the result, increment
`done`, and send `done as f32 / total as f32` on the progress channel
(relate.rs:222-223 and 259-260).  The `f32` fraction is modelled in `ℚ`;
`f32` rounding is monotone, so order relations between modelled values
transfer.  The state is (aggregate, done counter, progress values sent). -/
def coordStep (total : ℚ) (st : RelatedFiles × Nat × List ℚ)
    (r : Except Error HashedFile) : RelatedFiles × Nat × List ℚ :=
  (recvStep st.1 r, st.2.1 + 1, st.2.2 ++ [((st.2.1 + 1 : Nat) : ℚ) / total])

/-- The coordinator receive loop of the parallel path (relate.rs:200-226),
run over the list of results the coordinator actually dequeued before the
loop ended. -/
def coordinate (total : ℚ) (received : List (Except Error HashedFile)) :
    RelatedFiles × Nat × List ℚ :=
  received.foldl (coordStep total) (⟨[], []⟩, 0, [])

/-- `RelatedFiles::relate_sequential` (relate.rs:234-263): iterate the
descriptor set, hash each descriptor, aggregate, and emit
`done / total_size` after every item.  Returns the aggregate and the
progress values sent.  No terminal value is sent after the loop. -/
def relate_sequential (digest : List Nat → String)
    (fsR : Path → Except String (List Nat)) (walk : WalkInfo) :
    RelatedFiles × List ℚ :=
  let total : ℚ := (walk.total_size : ℚ)
  let st := walk.files.foldl
    (fun st info => coordStep total st (hash_from_file_info digest fsR info))
    (⟨[], []⟩, 0, [])
  (st.1, st.2.2)

/-- Size of the chunks handed to worker threads (relate.rs:186-187):
`chunk_size = total / max_threads`, then `if chunk_size > 1 { chunk_size }
else { 1 }` at the `chunks` call site.  In Rust the division panics when
`max_threads = 0`; this definition is only consulted when
`max_threads ≠ 0` (see `relate`), and Lean's `Nat` division is total. -/
def effChunkSize (walk : WalkInfo) (conf : RelateConf) : Nat :=
  let c := walk.total_size / conf.max_threads
  if 1 < c then c else 1

/-- `chunkListAux fuel c l` splits `l` into consecutive chunks of `c`
elements (the semantics of itertools `chunks`, relate.rs:187); `fuel` bounds
the recursion and is inert whenever `fuel ≥ l.length`. -/
def chunkListAux : Nat → Nat → List FileInfo → List (List FileInfo)
  | 0, _, _ => []
  | _, _, [] => []
  | fuel + 1, c, x :: xs =>
    (x :: xs.take (c - 1)) :: chunkListAux fuel c (xs.drop (c - 1))

/-- Consecutive chunks of `c` elements of `l` (itertools `chunks`). -/
def chunkList (c : Nat) (l : List FileInfo) : List (List FileInfo) :=
  chunkListAux l.length c l

/-- The per-worker result sequences of the parallel path
(relate.rs:187-197): each worker hashes the descriptors of its chunk in
order and sends every result on the shared channel. -/
def workerOutputs (digest : List Nat → String)
    (fsR : Path → Except String (List Nat)) (walk : WalkInfo)
    (conf : RelateConf) : List (List (Except Error HashedFile)) :=
  (chunkList (effChunkSize walk conf) walk.files).map
    (fun ch => ch.map (hash_from_file_info digest fsR))

/-- The sequences of results the coordinator can dequeue from the mpsc
channel: an interleaving of prefixes of the worker output sequences.  The
`nil` constructor reflects that the receive loop
`while !threads.iter().all(|th| th.is_finished())` (relate.rs:200) may exit
at any point once workers have finished, dropping results still queued. -/
inductive Recv : List (List (Except Error HashedFile)) →
    List (Except Error HashedFile) → Prop where
  | nil (ls : List (List (Except Error HashedFile))) : Recv ls []
  | step (pre post : List (List (Except Error HashedFile)))
      (x : Except Error HashedFile) (xs rest : List (Except Error HashedFile)) :
      Recv (pre ++ xs :: post) rest →
      Recv (pre ++ (x :: xs) :: post) (x :: rest)

/-- The two execution paths of `RelatedFiles::relate`. -/
inductive Strategy where
  | sequential
  | parallel
deriving DecidableEq, Repr

/-- The path selection of `relate` (relate.rs:178):
`walk.total_size as usize > conf.size_threshold && walk.files.len() >
conf.size_threshold` chooses the sequential path; otherwise the code falls
through to the parallel path.  Both comparisons use `size_threshold`. -/
def chosenPath (walk : WalkInfo) (conf : RelateConf) : Strategy :=
  if conf.size_threshold < walk.total_size ∧
      conf.size_threshold < walk.files.length then
    .sequential
  else
    .parallel

/-- The parallel path of `relate` (relate.rs:181-231), given the results the
coordinator dequeued (constrained by `Recv (workerOutputs ...)` where a claim
depends on what the workers produced).  `chunk_size = total /
conf.max_threads as u64` panics when `max_threads = 0` (there is no coercion
of 0 in the code), modelled by `none`.  Otherwise the coordinator runs its
receive loop, then unconditionally sends a terminal progress value of `1.0`,
joins the workers, and returns the aggregate. -/
def relate_parallel (walk : WalkInfo) (conf : RelateConf)
    (received : List (Except Error HashedFile)) :
    Option (RelatedFiles × List ℚ) :=
  if conf.max_threads = 0 then
    none
  else
    let st := coordinate ((walk.total_size : Nat) : ℚ) received
    some (st.1, st.2.2 ++ [1])

/-- `RelatedFiles::relate` (relate.rs:177-232): dispatch on `chosenPath`.
The returned pair is (aggregated result, progress values sent);
`none` models a panic. -/
def relate (digest : List Nat → String)
    (fsR : Path → Except String (List Nat)) (walk : WalkInfo)
    (conf : RelateConf) (received : List (Except Error HashedFile)) :
    Option (RelatedFiles × List ℚ) :=
  match chosenPath walk conf with
  | .sequential => some (relate_sequential digest fsR walk)
  | .parallel => relate_parallel walk conf received

/-- All descriptors held in any group of a group map. -/
def membersOf (g : List (String × List FileInfo)) : List FileInfo :=
  (g.map Prod.snd).flatten

/-- Invariant of the group map maintained by both paths: every member of a
group was read successfully, its recorded size equals the length of the
bytes read (the `hash_from_file_info` check), and its group key is the
digest of those bytes. -/
def GroupsInv (digest : List Nat → String)
    (fsR : Path → Except String (List Nat))
    (g : List (String × List FileInfo)) : Prop :=
  ∀ p ∈ g, ∀ fi ∈ p.2,
    ∃ b, fsR fi.name = .ok b ∧ fi.size = b.length ∧ digest b = p.1

/-- The error recorded for one iterator item, if it fails: an iterator-level
error yields the placeholder-path `IO` error, an entry failing in
`from_entry` yields that error, a successful entry yields none
(relate.rs:145-167). -/
def entryError : Except String DirEntry → Option Error
  | .error m => some ⟨noPathPlaceholder, .io m⟩
  | .ok e =>
    match FileInfo.from_entry e with
    | .error err => some err
    | .ok _ => none

/-- The descriptor produced by one iterator item, if it succeeds. -/
def okInfo : Except String DirEntry → Option FileInfo
  | .error _ => none
  | .ok e => (FileInfo.from_entry e).toOption

/-- A concrete digest mapping each content to a string of `a`s of the same
length; distinct digests imply distinct content lengths. -/
def digestA : List Nat → String := fun b => String.mk (b.map (fun _ => 'a'))

/-- A concrete constant digest, exhibiting hash collisions between contents
of different lengths. -/
def digestC : List Nat → String := fun _ => "h"

/-- Concrete descriptor: path `a`, 1 byte. -/
def fiA : FileInfo := ⟨"a", 1, 0⟩

/-- Concrete descriptor: path `b`, 2 bytes. -/
def fiB : FileInfo := ⟨"b", 2, 0⟩

/-- Concrete descriptor: path `c`, 1 byte, same content as `fiA`. -/
def fiC : FileInfo := ⟨"c", 1, 0⟩

/-- Concrete descriptor: path `z`, 0 bytes. -/
def fiZ : FileInfo := ⟨"z", 0, 0⟩

/-- A concrete filesystem oracle for the descriptors above. -/
def fsAB : Path → Except String (List Nat) := fun p =>
  if p = "a" then .ok [7]
  else if p = "b" then .ok [8, 8]
  else if p = "c" then .ok [7]
  else if p = "z" then .ok []
  else .error "missing"

/-- An inventory holding only `fiA`. -/
def wOne : WalkInfo := ⟨1, [fiA], []⟩

/-- An inventory holding `fiZ` (0 bytes) and `fiA` (1 byte): two descriptors
but only one byte in total. -/
def wZA : WalkInfo := ⟨1, [fiZ, fiA], []⟩

/-- An inventory holding `fiA` and `fiB` (total 3 bytes). -/
def wAB : WalkInfo := ⟨3, [fiA, fiB], []⟩

/-- An inventory holding `fiA` and `fiC`, two 1-byte files with equal
content. -/
def wAC : WalkInfo := ⟨2, [fiA, fiC], []⟩

/-- The inventory of nothing: total 0, no descriptors, no errors. -/
def emptyWalk : WalkInfo := ⟨0, [], []⟩

/-- Configuration with one worker and both thresholds 0: any non-empty
inventory takes the sequential path. -/
def confSeq0 : RelateConf := ⟨1, 0, 0⟩

/-- Configuration with one worker and size threshold 5: small inventories
take the parallel path. -/
def confPar5 : RelateConf := ⟨1, 0, 5⟩

/-- Configuration with `max_threads = 0` and both thresholds 0. -/
def confZeroMT : RelateConf := ⟨0, 0, 0⟩

/-- The walkdir iterator output for an empty directory, modelled from the
walkdir crate's documented behavior: the iterator yields the root path
itself first (at depth 0), so for an empty directory the root directory
entry is the only item.  The entry is given ordinary directory metadata
(length 4096, creation time available), as on a typical Linux filesystem.
`WalkInfo::walk` applies no file-type filter, so this entry is inserted as a
descriptor. -/
def emptyDirEntries : List (Except String DirEntry) :=
  [.ok ⟨"/empty", .ok ⟨4096, .ok 0⟩⟩]

/-- C5: for every descriptor whose file opens and reads without IO error,
`hash_from_file_info` fails with a `WrongSize` error carrying
expected = `info.size` and actual = the byte count read precisely when that
count differs from `info.size`; when they match it returns a `HashedFile`
whose fingerprint is the digest of the bytes read and whose descriptor
equals the input descriptor. -/
theorem c5_hash_spec (digest : List Nat → String)
    (fsR : Path → Except String (List Nat)) (info : FileInfo) (b : List Nat)
    (hread : fsR info.name = .ok b) :
    (hash_from_file_info digest fsR info =
        .error ⟨info.name, .wrongSize info.size b.length⟩ ↔
      b.length ≠ info.size)
    ∧ (b.length = info.size →
        hash_from_file_info digest fsR info = .ok ⟨digest b, info⟩) := by
  unfold hash_from_file_info
  rw [hread]
  by_cases h : info.size = b.length
  · simp [h]
  · simp [h]
    omega

/-- Witness for C5 at concrete inputs: `fiA` (size 1) reads one byte and
hashes to its digest; `fiB` with a tampered size 5 fails with
`WrongSize(5, 2)`. -/
theorem c5_hash_spec_witness :
    hash_from_file_info digestA fsAB fiA = .ok ⟨digestA [7], fiA⟩ ∧
      hash_from_file_info digestA fsAB ⟨"b", 5, 0⟩ =
        .error ⟨"b", .wrongSize 5 2⟩ := by
  constructor
  · exact (c5_hash_spec digestA fsAB fiA [7] rfl).2 rfl
  · exact (c5_hash_spec digestA fsAB ⟨"b", 5, 0⟩ [8, 8] rfl).1.mpr (by decide)

/-- C3: `relate` takes the sequential path exactly when the inventory's
total byte size exceeds `size_threshold` and its file count also exceeds
`size_threshold` (both comparisons against `size_threshold`), takes the
parallel path otherwise, and `file_threshold` is never consulted. -/
theorem c3_strategy (digest : List Nat → String)
    (fsR : Path → Except String (List Nat)) (walk : WalkInfo)
    (conf : RelateConf) (received : List (Except Error HashedFile)) :
    (chosenPath walk conf = .sequential ↔
      conf.size_threshold < walk.total_size ∧
        conf.size_threshold < walk.files.length)
    ∧ (chosenPath walk conf = .sequential →
        relate digest fsR walk conf received =
          some (relate_sequential digest fsR walk))
    ∧ (chosenPath walk conf = .parallel →
        relate digest fsR walk conf received =
          relate_parallel walk conf received)
    ∧ (∀ ft : Nat,
        chosenPath walk ⟨conf.max_threads, ft, conf.size_threshold⟩ =
            chosenPath walk conf ∧
          relate digest fsR walk ⟨conf.max_threads, ft, conf.size_threshold⟩
              received =
            relate digest fsR walk conf received) := by
  refine ⟨?_, ?_, ?_, ?_⟩
  · unfold chosenPath
    by_cases h : conf.size_threshold < walk.total_size ∧
        conf.size_threshold < walk.files.length <;> simp [h]
  · intro h
    unfold relate
    rw [h]
  · intro h
    unfold relate
    rw [h]
  · intro ft
    constructor
    · unfold chosenPath
      rfl
    · unfold relate chosenPath relate_parallel
      rfl

/-- Witness for C3: the one-descriptor inventory `wOne` with both thresholds
0 takes the sequential path, and with size threshold 5 the parallel path. -/
theorem c3_strategy_witness :
    relate digestA fsAB wOne confSeq0 [] =
        some (relate_sequential digestA fsAB wOne) ∧
      relate digestA fsAB wOne confPar5 [] = relate_parallel wOne confPar5 [] := by
  constructor
  · exact (c3_strategy digestA fsAB wOne confSeq0 []).2.1 (by decide)
  · exact (c3_strategy digestA fsAB wOne confPar5 []).2.2.1 (by decide)

/-- The walk fold records exactly the errors of the failing items, in
order, after whatever the accumulator already held. -/
theorem foldl_walkStep_errors (es : List (Except String DirEntry)) :
    ∀ acc : WalkInfo,
      (es.foldl walkStep acc).errors = acc.errors ++ es.filterMap entryError := by
  induction es with
  | nil => intro acc; simp
  | cons e es ih =>
    intro acc
    rw [List.foldl_cons, ih]
    cases e with
    | error m =>
      simp [walkStep, WalkInfo.insert_error, entryError]
    | ok de =>
      cases hfe : FileInfo.from_entry de with
      | error err =>
        simp [walkStep, WalkInfo.insert_entry, WalkInfo.insert_error, hfe,
          entryError]
      | ok fi =>
        simp [walkStep, WalkInfo.insert_entry, hfe, entryError]

/-- The walk fold adds exactly the sizes of the successful descriptors to
the running total. -/
theorem foldl_walkStep_total (es : List (Except String DirEntry)) :
    ∀ acc : WalkInfo,
      (es.foldl walkStep acc).total_size =
        acc.total_size + ((es.filterMap okInfo).map FileInfo.size).sum := by
  induction es with
  | nil => intro acc; simp
  | cons e es ih =>
    intro acc
    rw [List.foldl_cons, ih]
    cases e with
    | error m =>
      simp [walkStep, WalkInfo.insert_error, okInfo]
    | ok de =>
      cases hfe : FileInfo.from_entry de with
      | error err =>
        simp [walkStep, WalkInfo.insert_entry, WalkInfo.insert_error, hfe,
          okInfo, Except.toOption]
      | ok fi =>
        simp [walkStep, WalkInfo.insert_entry, hfe, okInfo, Except.toOption]
        omega

/-- The walk fold inserts exactly the successful descriptors, in order,
into the descriptor set. -/
theorem foldl_walkStep_files (es : List (Except String DirEntry)) :
    ∀ acc : WalkInfo,
      (es.foldl walkStep acc).files =
        (es.filterMap okInfo).foldl hsInsert acc.files := by
  induction es with
  | nil => intro acc; simp
  | cons e es ih =>
    intro acc
    rw [List.foldl_cons, ih]
    cases e with
    | error m =>
      simp [walkStep, WalkInfo.insert_error, okInfo]
    | ok de =>
      cases hfe : FileInfo.from_entry de with
      | error err =>
        simp [walkStep, WalkInfo.insert_entry, WalkInfo.insert_error, hfe,
          okInfo, Except.toOption]
      | ok fi =>
        simp [walkStep, WalkInfo.insert_entry, hfe, okInfo, Except.toOption]

/-- Inserting pairwise-distinct fresh elements into a deduplicated list
appends them all. -/
theorem foldl_hsInsert_of_nodup (infos : List FileInfo) :
    ∀ acc : List FileInfo, infos.Nodup → (∀ x ∈ infos, x ∉ acc) →
      infos.foldl hsInsert acc = acc ++ infos := by
  induction infos with
  | nil => intro acc _ _; simp
  | cons fi rest ih =>
    intro acc hnd hfresh
    have hfi : fi ∉ acc := hfresh fi (by simp)
    rw [List.foldl_cons]
    have hstep : hsInsert acc fi = acc ++ [fi] := by
      simp [hsInsert, hfi]
    rw [hstep, ih (acc ++ [fi]) (List.Nodup.of_cons hnd)]
    · simp
    · intro x hx
      simp only [List.mem_append, List.mem_singleton]
      rintro (hin | hxeq)
      · exact hfresh x (by simp [hx]) hin
      · subst hxeq
        exact (List.nodup_cons.mp hnd).1 hx

/-- C8: `walk` always returns an inventory and never aborts on a bad item:
every failing item contributes exactly one error, in order — carrying the
entry's own path when the entry was yielded, and the placeholder path when
the traversal iterator itself failed — and the fold continues over all
remaining items. -/
theorem c8_walk_errors :
    (∀ entries, (WalkInfo.walk entries).errors = entries.filterMap entryError)
    ∧ (∀ l1 l2 : List (Except String DirEntry),
        WalkInfo.walk (l1 ++ l2) = l2.foldl walkStep (WalkInfo.walk l1))
    ∧ (∀ e err, FileInfo.from_entry e = .error err → err.path = e.path)
    ∧ (∀ acc m, walkStep acc (.error m) =
        acc.insert_error ⟨noPathPlaceholder, .io m⟩) := by
  refine ⟨?_, ?_, ?_, ?_⟩
  · intro entries
    rw [WalkInfo.walk, foldl_walkStep_errors]
    rfl
  · intro l1 l2
    rw [WalkInfo.walk, WalkInfo.walk, List.foldl_append]
  · intro e err h
    obtain ⟨p, md⟩ := e
    unfold FileInfo.from_entry at h
    cases md with
    | error m =>
      cases h
      rfl
    | ok emd =>
      obtain ⟨len, cr⟩ := emd
      cases cr with
      | error m =>
        cases h
        rfl
      | ok c =>
        cases h
  · intro acc m
    rfl

/-- Witness for C8 at a concrete entry list: one iterator-level failure, one
entry without metadata, one entry without creation time, one good entry —
three errors with the expected paths, and the walk keeps going to the final
entry. -/
theorem c8_walk_errors_witness :
    (WalkInfo.walk
        [.error "boom",
         .ok ⟨"p1", .error "meta"⟩,
         .ok ⟨"p2", .ok ⟨7, .error "ctime"⟩⟩,
         .ok ⟨"p3", .ok ⟨7, .ok 3⟩⟩]).errors =
      [⟨noPathPlaceholder, .io "boom"⟩,
       ⟨"p1", .walkDir "meta"⟩,
       ⟨"p2", .noCreatedTime "ctime"⟩] ∧
    Error.path ⟨"p1", .walkDir "meta"⟩ = DirEntry.path ⟨"p1", .error "meta"⟩ := by
  constructor
  · rw [c8_walk_errors.1]
    decide
  · exact c8_walk_errors.2.2.1 ⟨"p1", .error "meta"⟩ ⟨"p1", .walkDir "meta"⟩
      (by decide)

/-- C9: for every inventory produced by `walk` (whose underlying traversal
yields pairwise-distinct descriptors, as each filesystem path is visited
once), `total_size` equals the sum of the byte sizes of the descriptors in
the descriptor set; the set is deduplicated by full equality — it holds no
duplicates, and inserting an already-present descriptor is a no-op. -/
theorem c9_total_size (entries : List (Except String DirEntry))
    (h : (entries.filterMap okInfo).Nodup) :
    (WalkInfo.walk entries).total_size =
        (((WalkInfo.walk entries).files).map FileInfo.size).sum
    ∧ (WalkInfo.walk entries).files.Nodup
    ∧ (∀ (s : List FileInfo) (fi : FileInfo), fi ∈ s → hsInsert s fi = s) := by
  have hfiles : (WalkInfo.walk entries).files = entries.filterMap okInfo := by
    rw [WalkInfo.walk, foldl_walkStep_files]
    have := foldl_hsInsert_of_nodup (entries.filterMap okInfo) [] h
      (by intro x _ hx; cases hx)
    rw [WalkInfo.new] at *
    simpa using this
  refine ⟨?_, ?_, ?_⟩
  · rw [hfiles]
    show (entries.foldl walkStep WalkInfo.new).total_size = _
    rw [foldl_walkStep_total]
    simp [WalkInfo.new]
  · rw [hfiles]
    exact h
  · intro s fi hin
    simp [hsInsert, hin]

/-- Witness for C9: two distinct descriptors of equal size 7; the total is
14, the sum of the set's sizes. -/
theorem c9_total_size_witness :
    (WalkInfo.walk
        [.ok ⟨"p1", .ok ⟨7, .ok 1⟩⟩, .ok ⟨"p2", .ok ⟨7, .ok 2⟩⟩]).total_size =
      (((WalkInfo.walk
        [.ok ⟨"p1", .ok ⟨7, .ok 1⟩⟩, .ok ⟨"p2", .ok ⟨7, .ok 2⟩⟩]).files).map
          FileInfo.size).sum :=
  (c9_total_size [.ok ⟨"p1", .ok ⟨7, .ok 1⟩⟩, .ok ⟨"p2", .ok ⟨7, .ok 2⟩⟩]
    (by decide)).1

/-- The aggregation/progress loop decomposes: the aggregate is the
`recvStep` fold, the counter grows by the item count, and one progress value
`done / total` is appended per item. -/
theorem foldl_coordStep_spec (total : ℚ)
    (results : List (Except Error HashedFile)) :
    ∀ st : RelatedFiles × Nat × List ℚ,
      results.foldl (coordStep total) st =
        (results.foldl recvStep st.1, st.2.1 + results.length,
         st.2.2 ++ (List.range results.length).map
           (fun k => ((st.2.1 + k + 1 : Nat) : ℚ) / total)) := by
  induction results with
  | nil => intro st; simp
  | cons r rs ih =>
    intro st
    rw [List.foldl_cons, ih]
    unfold coordStep
    refine congrArg₂ _ rfl (congrArg₂ _ ?_ ?_)
    · simp
      omega
    · dsimp only
      rw [List.append_assoc, List.singleton_append, List.length_cons,
        List.range_succ_eq_map, List.map_cons, List.map_map]
      congr 1
      have hfun : (fun k : Nat => ((st.2.1 + 1 + k + 1 : Nat) : ℚ) / total) =
          ((fun k : Nat => ((st.2.1 + k + 1 : Nat) : ℚ) / total) ∘ Nat.succ) := by
        funext k
        simp only [Function.comp_apply]
        push_cast
        ring
      rw [hfun]

/-- `relate_sequential` decomposed into the `recvStep` fold over the hashing
results and the per-item progress list `k / total_size`. -/
theorem relate_sequential_spec (digest : List Nat → String)
    (fsR : Path → Except String (List Nat)) (walk : WalkInfo) :
    relate_sequential digest fsR walk =
      ((walk.files.map (hash_from_file_info digest fsR)).foldl recvStep ⟨[], []⟩,
       (List.range walk.files.length).map
         (fun k => ((k + 1 : Nat) : ℚ) / (walk.total_size : ℚ))) := by
  simp only [relate_sequential]
  rw [← List.foldl_map (hash_from_file_info digest fsR)]
  rw [foldl_coordStep_spec]
  simp

/-- `relate_parallel` with a live worker count decomposed into the
`recvStep` fold over the received results, the per-item progress values, and
the unconditional terminal `1`. -/
theorem relate_parallel_spec (walk : WalkInfo) (conf : RelateConf)
    (received : List (Except Error HashedFile))
    (h : conf.max_threads ≠ 0) :
    relate_parallel walk conf received =
      some (received.foldl recvStep ⟨[], []⟩,
        ((List.range received.length).map
          (fun k => ((k + 1 : Nat) : ℚ) / (walk.total_size : ℚ))) ++ [1]) := by
  unfold relate_parallel coordinate
  rw [if_neg h, foldl_coordStep_spec]
  simp

/-- The per-item progress values `(k+1) / total` are non-decreasing for any
nonnegative `total`. -/
theorem chain_progress (total : ℚ) (htotal : 0 ≤ total) (n : Nat) :
    List.Chain' (· ≤ ·)
      ((List.range n).map (fun k => ((k + 1 : Nat) : ℚ) / total)) := by
  apply List.Pairwise.chain'
  rw [List.pairwise_map]
  refine (List.pairwise_lt_range n).imp ?_
  intro a b hab
  refine div_le_div_of_nonneg_right ?_ htotal
  exact_mod_cast Nat.succ_le_succ (Nat.le_of_lt hab)

/-- C4 counterexample: with the two-descriptor, one-byte inventory `wZA`
(`fiZ` of size 0 and `fiA` of size 1), the sequential run emits
`[1, 2]` — its final value is `2`, not `1`, and `2` lies outside `[0, 1]`;
the parallel run over the same descriptors, under the schedule that delivers
both worker results, emits `[1, 2, 1]`, which is not non-decreasing.  All
values involved are small integers, on which `f32` arithmetic is exact. -/
theorem c4_counterexample :
    (relate digestC fsAB wZA confSeq0 [] =
        some (⟨[("h", [fiZ, fiA])], []⟩, [(1 : ℚ), 2]) ∧
      [(1 : ℚ), 2].getLast? = some 2 ∧ (2 : ℚ) ≠ 1 ∧ ¬((2 : ℚ) ≤ 1))
    ∧ (relate digestC fsAB wZA confPar5 [.ok ⟨"h", fiZ⟩, .ok ⟨"h", fiA⟩] =
        some (⟨[("h", [fiZ, fiA])], []⟩, [(1 : ℚ), 2, 1]) ∧
      Recv (workerOutputs digestC fsAB wZA confPar5)
          [.ok ⟨"h", fiZ⟩, .ok ⟨"h", fiA⟩] ∧
      ¬ List.Chain' (· ≤ ·) [(1 : ℚ), 2, 1]) := by
  have hprog2 : (List.range 2).map
      (fun k => ((k + 1 : Nat) : ℚ) / ((1 : Nat) : ℚ)) = [1, 2] := by
    norm_num [List.range_succ]
  have hagg : ([fiZ, fiA].map (hash_from_file_info digestC fsAB)).foldl recvStep
      ⟨[], []⟩ = ({ files := [("h", [fiZ, fiA])], errors := [] } : RelatedFiles) := by
    decide
  have hagg2 : ([.ok ⟨"h", fiZ⟩, .ok ⟨"h", fiA⟩] :
        List (Except Error HashedFile)).foldl recvStep ⟨[], []⟩ =
      ({ files := [("h", [fiZ, fiA])], errors := [] } : RelatedFiles) := by
    decide
  refine ⟨⟨?_, by simp, by norm_num, by norm_num⟩, ⟨?_, ?_, ?_⟩⟩
  · have hpath : chosenPath wZA confSeq0 = .sequential := by decide
    calc relate digestC fsAB wZA confSeq0 []
        = some (relate_sequential digestC fsAB wZA) := by
          unfold relate
          rw [hpath]
      _ = some (([fiZ, fiA].map (hash_from_file_info digestC fsAB)).foldl
            recvStep ⟨[], []⟩,
            (List.range 2).map
              (fun k => ((k + 1 : Nat) : ℚ) / ((1 : Nat) : ℚ))) := by
          rw [relate_sequential_spec]
          rfl
      _ = some (⟨[("h", [fiZ, fiA])], []⟩, [(1 : ℚ), 2]) := by
          rw [hagg, hprog2]
  · have hpath : chosenPath wZA confPar5 = .parallel := by decide
    calc relate digestC fsAB wZA confPar5 [.ok ⟨"h", fiZ⟩, .ok ⟨"h", fiA⟩]
        = relate_parallel wZA confPar5 [.ok ⟨"h", fiZ⟩, .ok ⟨"h", fiA⟩] := by
          unfold relate
          rw [hpath]
      _ = some (([.ok ⟨"h", fiZ⟩, .ok ⟨"h", fiA⟩] :
            List (Except Error HashedFile)).foldl recvStep ⟨[], []⟩,
            ((List.range 2).map
              (fun k => ((k + 1 : Nat) : ℚ) / ((1 : Nat) : ℚ))) ++ [1]) := by
          rw [relate_parallel_spec _ _ _ (by decide)]
          rfl
      _ = some (⟨[("h", [fiZ, fiA])], []⟩, [(1 : ℚ), 2, 1]) := by
          rw [hagg2, hprog2]
          rfl
  · have hW : workerOutputs digestC fsAB wZA confPar5 =
        [[.ok ⟨"h", fiZ⟩], [.ok ⟨"h", fiA⟩]] := by decide
    rw [hW]
    have h0 : Recv [([] : List (Except Error HashedFile)), []]
        ([] : List (Except Error HashedFile)) := Recv.nil _
    have h1 : Recv [([] : List (Except Error HashedFile)), [.ok ⟨"h", fiA⟩]]
        [.ok ⟨"h", fiA⟩] :=
      Recv.step [[]] [] (.ok ⟨"h", fiA⟩) [] [] h0
    exact Recv.step [] [[.ok ⟨"h", fiA⟩]] (.ok ⟨"h", fiZ⟩) [] [.ok ⟨"h", fiA⟩] h1
  · intro hchain
    have h21 : (2 : ℚ) ≤ 1 :=
      (List.chain'_cons.mp (List.chain'_cons.mp hchain).2).1
    norm_num at h21

/-- C4 amended: on both paths the emitted per-item values are
`(items processed so far) / total_size`, a non-decreasing sequence that is
not confined to `[0, 1]`; the parallel path additionally sends an
unconditional terminal `1` (which can undercut the preceding value), while
the sequential path sends no terminal value — its last emission is
`count / total_size`. -/
theorem c4_amended :
    (∀ (digest : List Nat → String) (fsR : Path → Except String (List Nat))
        (walk : WalkInfo),
      (relate_sequential digest fsR walk).2 =
          (List.range walk.files.length).map
            (fun k => ((k + 1 : Nat) : ℚ) / (walk.total_size : ℚ)) ∧
        List.Chain' (· ≤ ·) (relate_sequential digest fsR walk).2)
    ∧ (∀ (walk : WalkInfo) (conf : RelateConf)
        (received : List (Except Error HashedFile)), conf.max_threads ≠ 0 →
      relate_parallel walk conf received =
          some (received.foldl recvStep ⟨[], []⟩,
            ((List.range received.length).map
              (fun k => ((k + 1 : Nat) : ℚ) / (walk.total_size : ℚ))) ++ [1]) ∧
        (((List.range received.length).map
            (fun k => ((k + 1 : Nat) : ℚ) / (walk.total_size : ℚ))) ++
              [1]).getLast? = some 1 ∧
        List.Chain' (· ≤ ·) ((List.range received.length).map
          (fun k => ((k + 1 : Nat) : ℚ) / (walk.total_size : ℚ)))) := by
  constructor
  · intro digest fsR walk
    constructor
    · rw [relate_sequential_spec]
    · rw [relate_sequential_spec]
      exact chain_progress _ (Nat.cast_nonneg _) _
  · intro walk conf received h
    refine ⟨relate_parallel_spec walk conf received h, ?_, ?_⟩
    · exact List.getLast?_concat _
    · exact chain_progress _ (Nat.cast_nonneg _) _

/-- Witness for C4 amended, at the one-descriptor inventory `wOne`: the
sequential progress list is `[1]` (one item over one byte) and the parallel
path over an empty received list emits only the terminal `[1]`. -/
theorem c4_amended_witness :
    (relate_sequential digestA fsAB wOne).2 = [(1 : ℚ)] ∧
      relate_parallel wOne confPar5 [] = some (⟨[], []⟩, [(1 : ℚ)]) := by
  constructor
  · rw [(c4_amended.1 digestA fsAB wOne).1]
    norm_num [wOne, List.range_succ]
  · rw [(c4_amended.2 wOne confPar5 [] (by decide)).1]
    rfl

/-- A coordinator facing no workers receives nothing. -/
theorem recv_of_nil (ls : List (List (Except Error HashedFile)))
    (r : List (Except Error HashedFile)) (h : Recv ls r) : ls = [] → r = [] := by
  cases h with
  | nil => intro _; rfl
  | step pre post x xs rest h' =>
    intro heq
    exact absurd heq (by simp)

/-- Everything the coordinator receives was sent by some worker. -/
theorem recv_mem (ls : List (List (Except Error HashedFile)))
    (r : List (Except Error HashedFile)) (h : Recv ls r) :
    ∀ y ∈ r, ∃ l ∈ ls, y ∈ l := by
  induction h with
  | nil => intro y hy; cases hy
  | step pre post x xs rest h' ih =>
    intro y hy
    rcases List.mem_cons.mp hy with hyx | hyr
    · refine ⟨x :: xs, by simp, ?_⟩
      rw [hyx]
      exact List.mem_cons_self x xs
    · obtain ⟨l, hl, hyl⟩ := ih y hyr
      rcases List.mem_append.mp hl with hpre | hrest
      · exact ⟨l, by simp [List.mem_append, hpre], hyl⟩
      · rcases List.mem_cons.mp hrest with hlxs | hpost
        · exact ⟨x :: xs, by simp, List.mem_cons_of_mem x (hlxs ▸ hyl)⟩
        · exact ⟨l, by simp [List.mem_append, hpost], hyl⟩

/-- Chunking splits a list without losing or duplicating elements. -/
theorem chunkListAux_flatten (c : Nat) :
    ∀ (fuel : Nat) (l : List FileInfo), l.length ≤ fuel →
      (chunkListAux fuel c l).flatten = l := by
  intro fuel
  induction fuel with
  | zero =>
    intro l hl
    have : l = [] := List.length_eq_zero.mp (Nat.le_zero.mp hl)
    subst this
    rfl
  | succ fuel ih =>
    intro l hl
    cases l with
    | nil => rfl
    | cons x xs =>
      have hl' : xs.length ≤ fuel := by
        have hx := hl
        simp only [List.length_cons] at hx
        omega
      show ((x :: xs.take (c - 1)) :: chunkListAux fuel c (xs.drop (c - 1))).flatten
          = x :: xs
      rw [List.flatten_cons,
        ih (xs.drop (c - 1)) (by simp only [List.length_drop]; omega)]
      simp [List.take_append_drop]

/-- Every element of a chunk is an element of the chunked list. -/
theorem chunkList_mem (c : Nat) (l : List FileInfo) (ch : List FileInfo)
    (hch : ch ∈ chunkList c l) (x : FileInfo) (hx : x ∈ ch) : x ∈ l := by
  have hmem : x ∈ (chunkListAux l.length c l).flatten :=
    List.mem_flatten.mpr ⟨ch, hch, hx⟩
  rw [chunkListAux_flatten c l.length l (le_refl _)] at hmem
  exact hmem

/-- C7 amended (relate half): on the inventory with total 0, no descriptors
and no errors, `relate` with a nonzero worker cap returns the empty group
map and the empty error list, emits only the terminal progress value `1`,
and does not panic (no division by zero occurs: the result is `some`). -/
theorem c7_amended (digest : List Nat → String)
    (fsR : Path → Except String (List Nat)) (conf : RelateConf)
    (received : List (Except Error HashedFile))
    (hmt : conf.max_threads ≠ 0)
    (hrecv : Recv (workerOutputs digest fsR emptyWalk conf) received) :
    relate digest fsR emptyWalk conf received = some (⟨[], []⟩, [1]) := by
  have hw : workerOutputs digest fsR emptyWalk conf = [] := rfl
  have hr : received = [] := recv_of_nil _ _ (hw ▸ hrecv) rfl
  subst hr
  have hpath : chosenPath emptyWalk conf = .parallel := by
    unfold chosenPath emptyWalk
    simp
  unfold relate
  rw [hpath, relate_parallel_spec _ _ _ hmt]
  rfl

/-- Witness for C7 amended at a concrete configuration with one worker. -/
theorem c7_amended_witness :
    relate digestA fsAB emptyWalk confSeq0 [] = some (⟨[], []⟩, [1]) :=
  c7_amended digestA fsAB confSeq0 [] (by decide) (Recv.nil _)

/-- C7 counterexample (walk half): the modelled walkdir output for an empty
directory is the root directory entry itself, and the walker — having no
file-type filter — inserts it, so the inventory has `total_size = 4096` (the
directory's metadata length) and a non-empty descriptor set, contradicting
the claimed `total_size = 0` and empty set. -/
theorem c7_counterexample :
    (WalkInfo.walk emptyDirEntries).total_size = 4096 ∧
      (WalkInfo.walk emptyDirEntries).files = [⟨"/empty", 4096, 0⟩] ∧
      ¬((WalkInfo.walk emptyDirEntries).total_size = 0 ∧
        (WalkInfo.walk emptyDirEntries).files = []) := by
  decide

/-- C6: with `max_threads = 0` the parallel path's
`total / conf.max_threads as u64` (relate.rs:186) divides by zero and the
run panics (modelled as `none`) — the configured 0 is never coerced to 1,
contradicting the `RelateConf` doc comment.  With a nonzero worker cap the
effective chunk size at the `chunks` call site is `total / max_threads`
floored to at least 1, e.g. `1 / 1 = 1` for `wOne`. -/
theorem c6_max_threads_zero :
    relate digestA fsAB emptyWalk confZeroMT [] = none ∧
      relate digestA fsAB wOne ⟨0, 0, 5⟩ [] = none ∧
      effChunkSize wOne confPar5 = 1 := by
  refine ⟨rfl, rfl, rfl⟩

/-- C1: a run of the parallel path on the single-descriptor inventory `wOne`
in which the coordinator's liveness check `while
!threads.iter().all(|th| th.is_finished())` (relate.rs:200) first fires
after the worker has finished: the worker hashed `fiA` successfully (first
conjunct), the empty received sequence is a legal schedule (second
conjunct), yet the returned group map is empty — the successfully hashed
descriptor `fiA` appears in no group, so the mapping is not a partition of
the successfully hashed descriptors. -/
theorem c1_lost_result :
    hash_from_file_info digestC fsAB fiA = .ok ⟨"h", fiA⟩ ∧
      Recv (workerOutputs digestC fsAB wOne confPar5) [] ∧
      relate digestC fsAB wOne confPar5 [] = some (⟨[], []⟩, [1]) := by
  refine ⟨by decide, Recv.nil _, ?_⟩
  have hpath : chosenPath wOne confPar5 = .parallel := by decide
  unfold relate
  rw [hpath, relate_parallel_spec _ _ _ (by decide)]
  rfl

/-- Unfolding `membersOf` over a cons. -/
theorem membersOf_cons (k : String) (s : List FileInfo)
    (g : List (String × List FileInfo)) :
    membersOf ((k, s) :: g) = s ++ membersOf g := rfl

/-- A member of an updated group map is an old member or the inserted
descriptor. -/
theorem mem_updateGroup (g : List (String × List FileInfo)) (h : String)
    (fi : FileInfo) :
    ∀ x ∈ membersOf (updateGroup g h fi), x ∈ membersOf g ∨ x = fi := by
  induction g with
  | nil =>
    intro x hx
    right
    simpa [updateGroup, membersOf] using hx
  | cons p rest ih =>
    obtain ⟨k, s⟩ := p
    intro x hx
    by_cases hk : k = h
    · rw [show updateGroup ((k, s) :: rest) h fi = (k, hsInsert s fi) :: rest
          from by simp [updateGroup, hk], membersOf_cons] at hx
      rcases List.mem_append.mp hx with hx1 | hx2
      · unfold hsInsert at hx1
        by_cases hfis : fi ∈ s
        · rw [if_pos hfis] at hx1
          left
          rw [membersOf_cons]
          exact List.mem_append_left _ hx1
        · rw [if_neg hfis] at hx1
          rcases List.mem_append.mp hx1 with hs | hone
          · left
            rw [membersOf_cons]
            exact List.mem_append_left _ hs
          · right
            simpa using hone
      · left
        rw [membersOf_cons]
        exact List.mem_append_right _ hx2
    · rw [show updateGroup ((k, s) :: rest) h fi = (k, s) :: updateGroup rest h fi
          from by simp [updateGroup, hk], membersOf_cons] at hx
      rcases List.mem_append.mp hx with hs | hrest
      · left
        rw [membersOf_cons]
        exact List.mem_append_left _ hs
      · rcases ih x hrest with h1 | h2
        · left
          rw [membersOf_cons]
          exact List.mem_append_right _ h1
        · right
          exact h2

/-- Inserting a descriptor not yet present in any group grows the total
membership by exactly one. -/
theorem length_membersOf_updateGroup (h : String) (fi : FileInfo) :
    ∀ g : List (String × List FileInfo), fi ∉ membersOf g →
      (membersOf (updateGroup g h fi)).length = (membersOf g).length + 1 := by
  intro g
  induction g with
  | nil => intro _; rfl
  | cons p rest ih =>
    obtain ⟨k, s⟩ := p
    intro hfi
    rw [membersOf_cons] at hfi
    have hfis : fi ∉ s := fun hs => hfi (List.mem_append_left _ hs)
    have hfir : fi ∉ membersOf rest := fun hr => hfi (List.mem_append_right _ hr)
    by_cases hk : k = h
    · rw [show updateGroup ((k, s) :: rest) h fi = (k, hsInsert s fi) :: rest
          from by simp [updateGroup, hk], membersOf_cons, membersOf_cons]
      unfold hsInsert
      rw [if_neg hfis]
      simp [List.length_append]
      omega
    · rw [show updateGroup ((k, s) :: rest) h fi = (k, s) :: updateGroup rest h fi
          from by simp [updateGroup, hk], membersOf_cons, membersOf_cons]
      simp only [List.length_append, ih hfir]
      omega

/-- Inversion of a successful hash: the file was read, the size check
passed, and the result is the digest paired with the input descriptor. -/
theorem hash_from_file_info_ok (digest : List Nat → String)
    (fsR : Path → Except String (List Nat)) (i : FileInfo) (hf : HashedFile)
    (h : hash_from_file_info digest fsR i = .ok hf) :
    ∃ b, fsR i.name = .ok b ∧ i.size = b.length ∧ hf = ⟨digest b, i⟩ := by
  unfold hash_from_file_info at h
  cases hb : fsR i.name with
  | error e =>
    rw [hb] at h
    cases h
  | ok bytes =>
    rw [hb] at h
    dsimp only at h
    by_cases hsz : i.size ≠ bytes.length
    · rw [if_pos hsz] at h
      cases h
    · rw [if_neg hsz] at h
      cases h
      exact ⟨bytes, rfl, by omega, rfl⟩

/-- `updateGroup` preserves the group invariant when the inserted
descriptor itself satisfies it for the target key. -/
theorem groupsInv_updateGroup (digest : List Nat → String)
    (fsR : Path → Except String (List Nat)) (h : String) (fi : FileInfo)
    (b : List Nat) (hb : fsR fi.name = .ok b) (hsize : fi.size = b.length)
    (hdig : digest b = h) :
    ∀ g, GroupsInv digest fsR g → GroupsInv digest fsR (updateGroup g h fi) := by
  intro g
  induction g with
  | nil =>
    intro _ p hp fi' hfi'
    have hp' : p = (h, [fi]) := by simpa [updateGroup] using hp
    subst hp'
    have : fi' = fi := by simpa using hfi'
    subst this
    exact ⟨b, hb, hsize, hdig⟩
  | cons q rest ih =>
    obtain ⟨k, s⟩ := q
    intro hinv
    by_cases hk : k = h
    · rw [show updateGroup ((k, s) :: rest) h fi = (k, hsInsert s fi) :: rest
          from by simp [updateGroup, hk]]
      intro p hp fi' hfi'
      rcases List.mem_cons.mp hp with hp1 | hp2
      · subst hp1
        unfold hsInsert at hfi'
        by_cases hfis : fi ∈ s
        · rw [if_pos hfis] at hfi'
          exact hinv (k, s) (by simp) fi' hfi'
        · rw [if_neg hfis] at hfi'
          rcases List.mem_append.mp hfi' with hs | hone
          · exact hinv (k, s) (by simp) fi' hs
          · have : fi' = fi := by simpa using hone
            subst this
            refine ⟨b, hb, hsize, ?_⟩
            rw [hdig, hk]
      · exact hinv p (by simp [hp2]) fi' hfi'
    · rw [show updateGroup ((k, s) :: rest) h fi = (k, s) :: updateGroup rest h fi
          from by simp [updateGroup, hk]]
      intro p hp fi' hfi'
      rcases List.mem_cons.mp hp with hp1 | hp2
      · subst hp1
        exact hinv (k, s) (by simp) fi' hfi'
      · exact ih (fun p' hp' fi'' hfi'' =>
          hinv p' (List.mem_cons_of_mem _ hp') fi'' hfi'') p hp2 fi' hfi'

/-- Folding `recvStep` over results that all stem from
`hash_from_file_info` preserves the group invariant. -/
theorem groupsInv_foldl (digest : List Nat → String)
    (fsR : Path → Except String (List Nat)) :
    ∀ (results : List (Except Error HashedFile)) (acc : RelatedFiles),
      GroupsInv digest fsR acc.files →
      (∀ x ∈ results, ∃ i, x = hash_from_file_info digest fsR i) →
      GroupsInv digest fsR (results.foldl recvStep acc).files := by
  intro results
  induction results with
  | nil => intro acc hacc _; exact hacc
  | cons r rs ih =>
    intro acc hacc hall
    rw [List.foldl_cons]
    refine ih (recvStep acc r) ?_ (fun x hx => hall x (List.mem_cons_of_mem _ hx))
    obtain ⟨i, hi⟩ := hall r (by simp)
    cases hr : hash_from_file_info digest fsR i with
    | error e =>
      rw [hi, hr]
      exact hacc
    | ok hf =>
      rw [hi, hr]
      obtain ⟨b, hb, hs, hfeq⟩ := hash_from_file_info_ok digest fsR i hf hr
      subst hfeq
      exact groupsInv_updateGroup digest fsR (digest b) i b
        (by simpa using hb) (by simpa using hs) rfl acc.files hacc

/-- The aggregate of the sequential path is the `recvStep` fold over the
hashing results. -/
theorem relate_sequential_fst (digest : List Nat → String)
    (fsR : Path → Except String (List Nat)) (walk : WalkInfo) :
    (relate_sequential digest fsR walk).1 =
      (walk.files.map (hash_from_file_info digest fsR)).foldl recvStep
        ⟨[], []⟩ := by
  rw [relate_sequential_spec]

/-- C2 counterexample: grouping consults only the fingerprint — no size
check independent of the fingerprint match is performed (the size-checking
`file_content_equal` is never invoked by `relate`).  Under a colliding
digest, `fiA` (size 1) and `fiB` (size 2) land in the same group of the
result returned by `relate`, although their recorded sizes differ. -/
theorem c2_counterexample :
    relate digestC fsAB wAB confSeq0 [] =
        some (relate_sequential digestC fsAB wAB) ∧
      (relate_sequential digestC fsAB wAB).1.files = [("h", [fiA, fiB])] ∧
      fiA ∈ [fiA, fiB] ∧ fiB ∈ [fiA, fiB] ∧ fiA.size ≠ fiB.size := by
  refine ⟨?_, ?_, by decide, by decide, by decide⟩
  · unfold relate
    rw [show chosenPath wAB confSeq0 = .sequential from by decide]
  · rw [relate_sequential_fst]
    decide

/-- C2 amended: every member of a group returned by `relate` (either path)
has a recorded size equal to the length of its content as read, and carries
the group's fingerprint as the digest of that content; consequently, when
the digest never assigns one fingerprint to contents of different lengths
(as a collision-free cryptographic digest does), any two descriptors in the
same group carry the same recorded byte size.  No size check independent of
the fingerprint occurs during grouping. -/
theorem c2_amended (digest : List Nat → String)
    (fsR : Path → Except String (List Nat)) (walk : WalkInfo)
    (conf : RelateConf) (received : List (Except Error HashedFile))
    (r : RelatedFiles) (prog : List ℚ)
    (hlen : ∀ b1 b2, digest b1 = digest b2 → b1.length = b2.length)
    (hrecv : Recv (workerOutputs digest fsR walk conf) received)
    (hrel : relate digest fsR walk conf received = some (r, prog)) :
    ∀ p ∈ r.files, ∀ fi1 ∈ p.2, ∀ fi2 ∈ p.2, fi1.size = fi2.size := by
  have hempty : GroupsInv digest fsR (⟨[], []⟩ : RelatedFiles).files := by
    intro p hp
    exact absurd hp (List.not_mem_nil p)
  have hinv : GroupsInv digest fsR r.files := by
    unfold relate at hrel
    cases hpath : chosenPath walk conf with
    | sequential =>
      rw [hpath] at hrel
      dsimp only at hrel
      have hr : r = (relate_sequential digest fsR walk).1 := by
        have hpair := Option.some.inj hrel
        exact (congrArg Prod.fst hpair).symm
      rw [hr, relate_sequential_fst]
      refine groupsInv_foldl digest fsR _ _ hempty ?_
      intro x hx
      obtain ⟨i, _, hi2⟩ := List.mem_map.mp hx
      exact ⟨i, hi2.symm⟩
    | parallel =>
      rw [hpath] at hrel
      unfold relate_parallel at hrel
      by_cases hmt : conf.max_threads = 0
      · rw [if_pos hmt] at hrel
        cases hrel
      · rw [if_neg hmt] at hrel
        dsimp only at hrel
        have hpair := Option.some.inj hrel
        have hr : r = (coordinate ((walk.total_size : Nat) : ℚ) received).1 :=
          (congrArg Prod.fst hpair).symm
        rw [hr, show (coordinate ((walk.total_size : Nat) : ℚ) received).1 =
            received.foldl recvStep ⟨[], []⟩ from by
          rw [coordinate, foldl_coordStep_spec]]
        refine groupsInv_foldl digest fsR _ _ hempty ?_
        intro x hx
        obtain ⟨l, hl, hxl⟩ := recv_mem _ _ hrecv x hx
        obtain ⟨ch, _, hlch⟩ := List.mem_map.mp hl
        rw [← hlch] at hxl
        obtain ⟨i, _, hxi⟩ := List.mem_map.mp hxl
        exact ⟨i, hxi.symm⟩
  intro p hp fi1 h1 fi2 h2
  obtain ⟨b1, _, hs1, hd1⟩ := hinv p hp fi1 h1
  obtain ⟨b2, _, hs2, hd2⟩ := hinv p hp fi2 h2
  rw [hs1, hs2]
  exact hlen b1 b2 (by rw [hd1, hd2])

/-- Witness for C2 amended: with the length-reflecting digest `digestA`,
the two equal-content descriptors `fiA` and `fiC` share a group in a
sequential run, and the theorem yields their size equality. -/
theorem c2_amended_witness : fiA.size = fiC.size := by
  have hlen : ∀ b1 b2 : List Nat, digestA b1 = digestA b2 →
      b1.length = b2.length := by
    intro b1 b2 h
    have h' : b1.map (fun _ => 'a') = b2.map (fun _ => 'a') := by
      have hdata := congrArg String.data h
      simpa [digestA] using hdata
    have := congrArg List.length h'
    simpa using this
  have hrel : relate digestA fsAB wAC confSeq0 [] =
      some ((relate_sequential digestA fsAB wAC).1,
        (relate_sequential digestA fsAB wAC).2) := by
    unfold relate
    rw [show chosenPath wAC confSeq0 = .sequential from by decide]
  have hfiles : (relate_sequential digestA fsAB wAC).1.files =
      [("a", [fiA, fiC])] := by
    rw [relate_sequential_fst]
    decide
  refine c2_amended digestA fsAB wAC confSeq0 []
    (relate_sequential digestA fsAB wAC).1
    (relate_sequential digestA fsAB wAC).2 hlen (Recv.nil _) hrel
    ("a", [fiA, fiC]) ?_ fiA (by decide) fiC (by decide)
  rw [hfiles]
  exact List.mem_singleton_self _

/-- Counting invariant of the aggregation fold: over pairwise-distinct
descriptors fresh to the accumulator, each item adds exactly one — to a
group on success, to the error list on failure. -/
theorem foldl_recvStep_count (digest : List Nat → String)
    (fsR : Path → Except String (List Nat)) :
    ∀ (infos : List FileInfo) (acc : RelatedFiles),
      infos.Nodup →
      (∀ fi ∈ membersOf acc.files, fi ∉ infos) →
      (membersOf ((infos.map (hash_from_file_info digest fsR)).foldl recvStep
          acc).files).length +
          ((infos.map (hash_from_file_info digest fsR)).foldl recvStep
            acc).errors.length
        = (membersOf acc.files).length + acc.errors.length + infos.length := by
  intro infos
  induction infos with
  | nil => intro acc _ _; simp
  | cons i rest ih =>
    intro acc hnd hfresh
    rw [List.map_cons, List.foldl_cons]
    cases hh : hash_from_file_info digest fsR i with
    | error e =>
      have hstep : recvStep acc (.error e) = ⟨acc.files, acc.errors ++ [e]⟩ := rfl
      rw [hstep]
      have := ih ⟨acc.files, acc.errors ++ [e]⟩ (List.Nodup.of_cons hnd)
        (fun fi hfi hmem => hfresh fi hfi (List.mem_cons_of_mem _ hmem))
      rw [this]
      simp
      omega
    | ok hf =>
      obtain ⟨b, hb, hs, hfeq⟩ := hash_from_file_info_ok digest fsR i hf hh
      have hinfo : hf.info = i := by rw [hfeq]
      have hstep : recvStep acc (.ok hf) =
          ⟨updateGroup acc.files hf.hash hf.info, acc.errors⟩ := rfl
      rw [hstep]
      have hnotmem : hf.info ∉ membersOf acc.files := by
        rw [hinfo]
        intro hmem
        exact hfresh i hmem (List.mem_cons_self i rest)
      have hfresh' : ∀ fi ∈ membersOf (updateGroup acc.files hf.hash hf.info),
          fi ∉ rest := by
        intro fi hfi
        rcases mem_updateGroup acc.files hf.hash hf.info fi hfi with hold | hnew
        · exact fun hr => hfresh fi hold (List.mem_cons_of_mem _ hr)
        · rw [hnew, hinfo]
          exact (List.nodup_cons.mp hnd).1
      have := ih ⟨updateGroup acc.files hf.hash hf.info, acc.errors⟩
        (List.Nodup.of_cons hnd) hfresh'
      rw [this]
      have hlen := length_membersOf_updateGroup hf.hash hf.info acc.files hnotmem
      simp only at hlen ⊢
      rw [hlen]
      simp
      omega

/-- C10: `relate_sequential` accounts for each descriptor of the inventory's
(duplicate-free) descriptor set exactly once — the sum of the group
cardinalities plus the number of errors equals the number of descriptors. -/
theorem c10_accounting (digest : List Nat → String)
    (fsR : Path → Except String (List Nat)) (walk : WalkInfo)
    (h : walk.files.Nodup) :
    ((relate_sequential digest fsR walk).1.files.map
        (fun p => p.2.length)).sum +
        (relate_sequential digest fsR walk).1.errors.length
      = walk.files.length := by
  have hsum : ∀ g : List (String × List FileInfo),
      (g.map (fun p => p.2.length)).sum = (membersOf g).length := by
    intro g
    rw [membersOf, List.length_flatten, List.map_map]
    rfl
  rw [relate_sequential_fst, hsum]
  have := foldl_recvStep_count digest fsR walk.files ⟨[], []⟩ h
    (fun fi hfi => absurd hfi (List.not_mem_nil fi))
  simpa [membersOf] using this

/-- Witness for C10: on `wAB` (two distinct files, both hashing
successfully) the single group of two plus zero errors accounts for both
descriptors. -/
theorem c10_accounting_witness :
    ((relate_sequential digestA fsAB wAB).1.files.map
        (fun p => p.2.length)).sum +
        (relate_sequential digestA fsAB wAB).1.errors.length = 2 :=
  c10_accounting digestA fsAB wAB (by decide)

end FileDedup
